import Mathlib

/-!
Verification development for a small Redis-compatible server written in Rust
(files `redis_commands.rs`, `redis_server.rs`, `redis_db.rs`).

The embedding below models the Rust code shallowly:

* Rust `&str` / `String` values become `List Char` (`Str` below); the wire
  protocol is ASCII so characters model bytes faithfully.
* `HashMap` becomes an association list whose `insert`, `remove` and `get`
  have exactly the map semantics of the Rust ones.
* `SystemTime` becomes a `Nat` counting milliseconds since the epoch.
* A Rust function that can panic is modelled with an `Option` result where
  `none` marks the panic; a function returning `anyhow::Result` is modelled
  with `Except String`.
-/

/-- Rust string slices, modelled as lists of characters. -/
abbrev Str := List Char

/-- One step of scanning for the separator `"\r\n"`, used from the right:
the accumulator holds the list of tokens produced so far, the head being the
(partial) token currently being extended. -/
def splitStep (c : Char) (st : List Str) : List Str :=
  match st with
  | [] => [[c]]
  | t :: ts => if c = '\r' ∧ t.head? = some '\n' then [] :: t.tail :: ts else (c :: t) :: ts

/-- Model of Rust `str::split("\r\n")`: splits a string at every occurrence
of the two-character separator, keeping empty tokens. -/
def splitCRLF (s : Str) : List Str := s.foldr splitStep [[]]

/-- Whether the string contains the substring `"\r\n"`. -/
def hasCRLF : Str → Bool
  | [] => false
  | c :: rest => (decide (c = '\r') && decide (rest.head? = some '\n')) || hasCRLF rest

@[simp] theorem splitCRLF_nil : splitCRLF [] = [[]] := rfl

@[simp] theorem splitCRLF_cons (c : Char) (s : Str) :
    splitCRLF (c :: s) = splitStep c (splitCRLF s) := rfl

theorem splitStep_ne_nil (c : Char) (st : List Str) : splitStep c st ≠ [] := by
  unfold splitStep
  match st with
  | [] => simp
  | t :: ts => dsimp only; split <;> simp

theorem splitCRLF_ne_nil (s : Str) : splitCRLF s ≠ [] := by
  induction s with
  | nil => simp
  | cons c s ih => simpa using splitStep_ne_nil c (splitCRLF s)

theorem splitStep_no_sep (c : Char) (t : Str) (ts : List Str)
    (h : ¬(c = '\r' ∧ t.head? = some '\n')) :
    splitStep c (t :: ts) = (c :: t) :: ts := by
  simp [splitStep, h]

/-- Splitting a string that starts with the separator produces an empty
first token. -/
theorem splitCRLF_sep (rest : Str) :
    splitCRLF ('\r' :: '\n' :: rest) = [] :: splitCRLF rest := by
  obtain ⟨t, ts, ht⟩ : ∃ t ts, splitCRLF rest = t :: ts := by
    cases h : splitCRLF rest with
    | nil => exact absurd h (splitCRLF_ne_nil rest)
    | cons t ts => exact ⟨t, ts, rfl⟩
  simp [ht, splitStep]

/-- Splitting `t ++ "\r\n" ++ rest` where `t` is free of the separator
yields `t` as the first token. -/
theorem splitCRLF_append_sep (t rest : Str) (h : hasCRLF t = false) :
    splitCRLF (t ++ '\r' :: '\n' :: rest) = t :: splitCRLF rest := by
  induction t with
  | nil => simpa using splitCRLF_sep rest
  | cons c t ih =>
    rw [hasCRLF] at h
    simp only [Bool.or_eq_false_iff, Bool.and_eq_false_iff, decide_eq_false_iff_not] at h
    obtain ⟨hc, ht⟩ := h
    have hrec := ih ht
    simp only [List.cons_append, splitCRLF_cons, hrec]
    apply splitStep_no_sep
    intro hcontra
    obtain ⟨hcr, hhead⟩ := hcontra
    cases t with
    | nil => simp at hhead
    | cons c2 t2 =>
      simp only [List.head?_cons, Option.some.injEq] at hhead
      rcases hc with hc | hc
      · exact hc hcr
      · rw [List.head?_cons] at hc
        exact hc (by rw [hhead])

/-- Concatenate tokens, terminating each with CRLF (the shape every value
produced by the Rust serializers has). -/
def joinCRLF : List Str → Str
  | [] => []
  | t :: ts => t ++ '\r' :: '\n' :: joinCRLF ts

theorem splitCRLF_joinCRLF_append (ts : List Str) (tail : Str)
    (h : ∀ t ∈ ts, hasCRLF t = false) :
    splitCRLF (joinCRLF ts ++ tail) = ts ++ splitCRLF tail := by
  induction ts with
  | nil => simp [joinCRLF]
  | cons t ts ih =>
    have ht : hasCRLF t = false := h t (by simp)
    have hts : ∀ u ∈ ts, hasCRLF u = false := fun u hu => h u (by simp [hu])
    simp only [joinCRLF, List.append_assoc, List.cons_append]
    rw [splitCRLF_append_sep t _ ht, ih hts]

theorem splitCRLF_joinCRLF (ts : List Str) (h : ∀ t ∈ ts, hasCRLF t = false) :
    splitCRLF (joinCRLF ts) = ts ++ [[]] := by
  have := splitCRLF_joinCRLF_append ts [] h
  simpa using this

/-- The character for a decimal digit. -/
def digitChar (d : Nat) : Char := Char.ofNat (48 + d)

/-- Decimal rendering of a natural number, with explicit fuel (the fuel is
always at least the number itself, which suffices). -/
def natToCharsAux : Nat → Nat → Str
  | 0, _ => []
  | fuel + 1, n => if n = 0 then [] else natToCharsAux fuel (n / 10) ++ [digitChar (n % 10)]

/-- Model of Rust's `format!("{}", n)` for unsigned integers. -/
def natToChars (n : Nat) : Str := if n = 0 then ['0'] else natToCharsAux n n

/-- Numeric value of a digit character. -/
def charVal (c : Char) : Nat := c.toNat - 48

/-- Model of Rust `str::parse::<usize>()` / `str::parse::<u64>()`: an
optional leading `+`, then one or more decimal digits, value below `2 ^ 64`. -/
def parseNum64 (s : Str) : Option Nat :=
  let t := if s.head? = some '+' then s.tail else s
  if t = [] then none
  else if t.all Char.isDigit then
    let v := t.foldl (fun acc c => acc * 10 + charVal c) 0
    if v < 2 ^ 64 then some v else none
  else none

theorem digitChar_isDigit (d : Nat) (h : d < 10) : (digitChar d).isDigit = true := by
  interval_cases d <;> decide

theorem charVal_digitChar (d : Nat) (h : d < 10) : charVal (digitChar d) = d := by
  interval_cases d <;> decide

theorem natToCharsAux_spec (fuel : Nat) :
    ∀ n, n ≤ fuel → 0 < n →
      natToCharsAux fuel n ≠ [] ∧ (natToCharsAux fuel n).all Char.isDigit = true ∧
        (natToCharsAux fuel n).foldl (fun acc c => acc * 10 + charVal c) 0 = n := by
  induction fuel with
  | zero => intro n hn hpos; omega
  | succ fuel ih =>
    intro n hn hpos
    have hne : ¬ n = 0 := by omega
    simp only [natToCharsAux, hne, if_false]
    by_cases hsmall : n < 10
    · have h10 : n / 10 = 0 := Nat.div_eq_of_lt hsmall
      have hmod : n % 10 = n := Nat.mod_eq_of_lt hsmall
      have hzero : natToCharsAux fuel (n / 10) = [] := by
        rw [h10]; cases fuel <;> simp [natToCharsAux]
      rw [hzero]
      refine ⟨by simp, ?_, ?_⟩
      · simp [List.all_cons, digitChar_isDigit (n % 10) (Nat.mod_lt n (by omega))]
      · rw [List.nil_append, List.foldl_cons, List.foldl_nil,
          charVal_digitChar (n % 10) (Nat.mod_lt n (by omega))]
        omega
    · have hdivpos : 0 < n / 10 := Nat.div_pos (by omega) (by omega)
      have hdivle : n / 10 ≤ fuel := by
        have := Nat.div_lt_self hpos (by omega : 1 < 10)
        omega
      obtain ⟨hne', hdig, hval⟩ := ih (n / 10) hdivle hdivpos
      refine ⟨by simp, ?_, ?_⟩
      · simp only [List.all_append, hdig, Bool.true_and, List.all_cons, List.all_nil,
          Bool.and_true]
        exact digitChar_isDigit (n % 10) (Nat.mod_lt n (by omega))
      · rw [List.foldl_append, hval, List.foldl_cons, List.foldl_nil,
          charVal_digitChar (n % 10) (Nat.mod_lt n (by omega))]
        omega

theorem natToChars_all_digits (n : Nat) : (natToChars n).all Char.isDigit = true := by
  by_cases h : n = 0
  · simp [natToChars, h]
  · have := natToCharsAux_spec n n (le_refl n) (by omega)
    simp [natToChars, h, this.2.1]

theorem natToChars_ne_nil (n : Nat) : natToChars n ≠ [] := by
  by_cases h : n = 0
  · simp [natToChars, h]
  · have := natToCharsAux_spec n n (le_refl n) (by omega)
    simp [natToChars, h, this.1]

theorem isDigit_ne_special (c : Char) (h : c.isDigit = true) :
    c ≠ '\r' ∧ c ≠ '\n' ∧ c ≠ '+' := by
  refine ⟨?_, ?_, ?_⟩ <;> intro hc <;> rw [hc] at h <;> exact absurd h (by decide)

/-- Digit strings contain no CRLF. -/
theorem hasCRLF_eq_false_of_digits (s : Str) (h : s.all Char.isDigit = true) :
    hasCRLF s = false := by
  induction s with
  | nil => rfl
  | cons c s ih =>
    simp only [List.all_cons, Bool.and_eq_true] at h
    rw [hasCRLF]
    have hc := isDigit_ne_special c h.1
    simp [hc.1, ih h.2]

theorem parseNum64_natToChars (n : Nat) (h : n < 2 ^ 64) :
    parseNum64 (natToChars n) = some n := by
  have hdig := natToChars_all_digits n
  have hne := natToChars_ne_nil n
  have hval : (natToChars n).foldl (fun acc c => acc * 10 + charVal c) 0 = n := by
    by_cases h0 : n = 0
    · simp [natToChars, h0, charVal]
    · have := natToCharsAux_spec n n (le_refl n) (by omega)
      simp [natToChars, h0, this.2.2]
  cases hc : natToChars n with
  | nil => exact absurd hc hne
  | cons c t =>
    rw [hc] at hdig hval
    have hcdig : c.isDigit = true := by
      simp only [List.all_cons, Bool.and_eq_true] at hdig
      exact hdig.1
    have hcplus : ¬ c = '+' := (isDigit_ne_special c hcdig).2.2
    unfold parseNum64
    simp [hdig, hval, hcplus]
    omega

/-! ## The RESP data type (`RedisDataType` in `redis_commands.rs`) -/

/-- The three RESP frame shapes of `redis_commands.rs`. -/
inductive RDT where
  | SimpleString (s : Str)
  | BulkString (s : Str)
  | Array (elems : List RDT)

mutual
/-- Model of `RedisDataType::serialize`. -/
def RDT.serialize : RDT → Str
  | .SimpleString s => '+' :: (s ++ '\r' :: '\n' :: [])
  | .BulkString s => '$' :: (natToChars s.length ++ '\r' :: '\n' :: (s ++ '\r' :: '\n' :: []))
  | .Array es => '*' :: (natToChars es.length ++ '\r' :: '\n' :: serializeRDTList es)

/-- Serialization of the elements of an array, in order. -/
def serializeRDTList : List RDT → Str
  | [] => []
  | f :: fs => RDT.serialize f ++ serializeRDTList fs
end

mutual
/-- The CRLF-separated tokens of a serialized frame. -/
def tokensOf : RDT → List Str
  | .SimpleString s => [('+' :: s)]
  | .BulkString s => [('$' :: natToChars s.length), s]
  | .Array es => ('*' :: natToChars es.length) :: tokensOfList es

/-- Tokens of a list of frames, concatenated. -/
def tokensOfList : List RDT → List Str
  | [] => []
  | f :: fs => tokensOf f ++ tokensOfList fs
end

/-- Model of `RedisDataType::parse_req`: consumes tokens from the front,
collecting parsed frames, stopping early after `n` loop iterations when
called with `arrLen = some n`.  The result is `none` exactly when the Rust
code panics (the `assert_eq!` on a bulk-string length).  The `fuel`
argument only bounds the recursion depth; every call strictly shrinks the
token list, so `fuel = tokens.length` gives the exact Rust behaviour. -/
def parseFrames : Nat → Option Nat → Nat → List Str → Option (List RDT × List Str)
  | 0, _, _, toks => some ([], toks)
  | _ + 1, _, _, [] => some ([], [])
  | fuel + 1, arrLen, count, tok :: rest =>
    let step : Option (List RDT × List Str) :=
      match tok with
      | [] => some ([], rest)
      | '+' :: s => some ([.SimpleString s], rest)
      | '*' :: s =>
        match parseNum64 s with
        | some n =>
          match parseFrames fuel (some n) 0 rest with
          | none => none
          | some (arr, r) => some ([.Array arr], r)
        | none => some ([], rest)
      | '$' :: s =>
        match parseNum64 s with
        | some n =>
          match rest with
          | [] => some ([], [])
          | b :: r2 => if b.length = n then some ([.BulkString b], r2) else none
        | none => some ([], rest)
      | _ :: _ => some ([], rest)
    match step with
    | none => none
    | some (fs, rest2) =>
      if arrLen = some (count + 1) then some (fs, rest2)
      else
        match parseFrames fuel arrLen (count + 1) rest2 with
        | none => none
        | some (fs2, r) => some (fs ++ fs2, r)

/-- Parse every top-level frame of a buffer, as
`RedisDataType::parse_req(None, data.split("\r\n"))` does. -/
def parseTop (data : Str) : Option (List RDT × List Str) :=
  parseFrames (splitCRLF data).length none 0 (splitCRLF data)

/-- Model of `RedisDataType::deserialize`: parse all top-level frames and
keep only the last (`pop`).  `none` models a panic (either the bulk-length
`assert_eq!` or `pop().unwrap()` on an empty vector). -/
def RDT.deserialize (data : Str) : Option RDT :=
  match parseTop data with
  | none => none
  | some (frames, _) => frames.getLast?

/-! ## The command layer (`Command` in `redis_commands.rs`) -/

/-- The command vocabulary of `redis_commands.rs`.  The expiry carried by
`Set` is an absolute instant in milliseconds, computed at parse time. -/
inductive Command where
  | Echo (s : Str)
  | Ping
  | Get (key : Str)
  | Set (key value : Str) (exp : Option Nat)
  | ConfigGet (param : Str)
  | Keys (pattern : Str)
  | Info (sect : Str)
  | ReplConf (field value : Str)
  | Psync (replId offset : Str)
deriving DecidableEq

/-- Model of `Command::serialize`.  `Get`, `Set`, `ConfigGet`, `Keys` and
`Info` are `todo!()` in the source, which panics: modelled as `none`. -/
def Command.serialize : Command → Option Str
  | .Echo e =>
    some ("*2\r\n$4\r\nECHO\r\n$".toList ++ natToChars e.length ++ '\r' :: '\n' :: e
      ++ '\r' :: '\n' :: [])
  | .Ping => some ("*1\r\n$4\r\nPING\r\n".toList)
  | .Get _ => none
  | .Set _ _ _ => none
  | .ConfigGet _ => none
  | .Keys _ => none
  | .Info _ => none
  | .ReplConf k v =>
    some ("*3\r\n$8\r\nREPLCONF\r\n$".toList ++ natToChars k.length ++ '\r' :: '\n' :: k
      ++ '\r' :: '\n' :: '$' :: natToChars v.length ++ '\r' :: '\n' :: v ++ '\r' :: '\n' :: [])
  | .Psync i o =>
    some ("*3\r\n$5\r\nPSYNC\r\n$".toList ++ natToChars i.length ++ '\r' :: '\n' :: i
      ++ '\r' :: '\n' :: '$' :: natToChars o.length ++ '\r' :: '\n' :: o ++ '\r' :: '\n' :: [])

/-- Model of `Command::get_next_string` followed by the caller's
`.unwrap()`: `none` when the stream is exhausted or the next item is an
array, in which case the Rust caller panics. -/
def getNextStr : List RDT → Option (Str × List RDT)
  | .SimpleString s :: r => some (s, r)
  | .BulkString s :: r => some (s, r)
  | _ => none

/-- Model of `Command::peek_next_string` (never consumes). -/
def peekStr : List RDT → Option Str
  | .SimpleString s :: _ => some s
  | .BulkString s :: _ => some s
  | _ => none

mutual
/-- Number of frames, counting nested array elements. -/
def sizeRDT : RDT → Nat
  | .SimpleString _ => 1
  | .BulkString _ => 1
  | .Array es => 1 + sizeRDTList es

/-- Total size of a list of frames. -/
def sizeRDTList : List RDT → Nat
  | [] => 0
  | f :: fs => sizeRDT f + sizeRDTList fs
end

/-- One iteration of the verb dispatch of `Command::parse_req`: the
commands pushed for the verb `s` and the remaining stream, `none` when a
`.unwrap()` in the source panics. -/
def parseVerb (now : Nat) (s : Str) (rest : List RDT) : Option (List Command × List RDT) :=
  if s = "PING".toList ∨ s = "ping".toList then some ([.Ping], rest)
  else if s = "ECHO".toList ∨ s = "echo".toList then
    match getNextStr rest with
    | none => none
    | some (m, r) => some ([.Echo m], r)
  else if s = "GET".toList ∨ s = "get".toList then
    match getNextStr rest with
    | none => none
    | some (k, r) => some ([.Get k], r)
  else if s = "SET".toList ∨ s = "set".toList then
    match getNextStr rest with
    | none => none
    | some (k, r1) =>
      match getNextStr r1 with
      | none => none
      | some (v, r2) =>
        match peekStr r2 with
        | some nx =>
          if nx = "PX".toList ∨ nx = "px".toList then
            match getNextStr r2 with
            | none => none
            | some (_, r3) =>
              match getNextStr r3 with
              | none => none
              | some (px, r4) =>
                match parseNum64 px with
                | none => none
                | some d => some ([.Set k v (some (now + d))], r4)
          else some ([.Set k v none], r2)
        | none => some ([.Set k v none], r2)
  else if s = "CONFIG".toList ∨ s = "config".toList then
    match getNextStr rest with
    | none => none
    | some (cmd, r1) =>
      if cmd = "GET".toList ∨ cmd = "get".toList then
        match getNextStr r1 with
        | none => none
        | some (k, r2) => some ([.ConfigGet k], r2)
      else some ([], r1)
  else if s = "KEYS".toList ∨ s = "keys".toList then
    match getNextStr rest with
    | none => none
    | some (p, r) => some ([.Keys p], r)
  else if s = "INFO".toList ∨ s = "info".toList then
    match peekStr rest with
    | some sec =>
      if sec = "replication".toList ∨ sec = "REPLICATION".toList then
        some ([.Info sec], rest)
      else some ([.Info ("all".toList)], rest)
    | none => some ([.Info ("all".toList)], rest)
  else if s = "REPLCONF".toList ∨ s = "replconf".toList then
    match getNextStr rest with
    | none => none
    | some (k, r1) =>
      match getNextStr r1 with
      | none => none
      | some (v, r2) => some ([.ReplConf k v], r2)
  else if s = "PSYNC".toList ∨ s = "psync".toList then
    match getNextStr rest with
    | none => none
    | some (k, r1) =>
      match getNextStr r1 with
      | none => none
      | some (v, r2) => some ([.Psync k v], r2)
  else some ([], rest)

/-- Model of `Command::parse_req`, the loop over the frame stream.  Fuel
bounds the recursion; every recursive call strictly decreases the total
frame count, so `fuel = sizeRDTList items` gives the exact behaviour. -/
def parseCmdsF (now : Nat) : Nat → List RDT → Option (List Command)
  | 0, _ => some []
  | _ + 1, [] => some []
  | fuel + 1, item :: rest =>
    match item with
    | .Array arr =>
      match parseCmdsF now fuel arr with
      | none => none
      | some sub =>
        match parseCmdsF now fuel rest with
        | none => none
        | some more => some (sub ++ more)
    | .SimpleString s =>
      match parseVerb now s rest with
      | none => none
      | some (cs, rest2) =>
        match parseCmdsF now fuel rest2 with
        | none => none
        | some more => some (cs ++ more)
    | .BulkString s =>
      match parseVerb now s rest with
      | none => none
      | some (cs, rest2) =>
        match parseCmdsF now fuel rest2 with
        | none => none
        | some more => some (cs ++ more)

/-- `Command::parse_req` on the elements of a decoded top-level array. -/
def Command.parseCmds (now : Nat) (items : List RDT) : Option (List Command) :=
  parseCmdsF now (sizeRDTList items) items

/-- Model of `Command::deserialize`: decode the buffer, keep only the last
top-level frame, and require it to be an array; `none` models the panic of
`pop().unwrap()` or of `panic!("Invalid data type")`, or a panic during
parsing. -/
def Command.deserialize (now : Nat) (req : Str) : Option (List Command) :=
  match RDT.deserialize req with
  | none => none
  | some (.Array arr) => Command.parseCmds now arr
  | some _ => none

/-! ## The keyspace (`Redis` in `redis_server.rs`)

The two `HashMap`s of the `Redis` struct are modelled as association
lists; `mapFind`, `mapInsert` and `mapRemove` have the lookup semantics of
`HashMap::get`, `HashMap::insert` and `HashMap::remove`. -/

/-- `HashMap::get`. -/
def mapFind {α : Type} (k : Str) : List (Str × α) → Option α
  | [] => none
  | (k2, v) :: rest => if k2 = k then some v else mapFind k rest

/-- `HashMap::remove` (drops every binding of the key). -/
def mapRemove {α : Type} (k : Str) : List (Str × α) → List (Str × α)
  | [] => []
  | (k2, v) :: rest => if k2 = k then mapRemove k rest else (k2, v) :: mapRemove k rest

/-- `HashMap::insert`. -/
def mapInsert {α : Type} (k : Str) (v : α) (m : List (Str × α)) : List (Str × α) :=
  (k, v) :: mapRemove k m

/-- The `db` and `exp` maps of the `Redis` struct.  Instants are
milliseconds since the epoch. -/
structure KVState where
  db : List (Str × Str)
  exp : List (Str × Nat)
deriving DecidableEq

/-- Model of `Redis::get` at the instant `now`: remove the value if its
expiry is past, drop a stale expiry entry when no value exists, then
return the value.  Returns the reply and the mutated state. -/
def Redis.get (now : Nat) (key : Str) (st : KVState) : Option Str × KVState :=
  let db1 := match mapFind key st.exp with
    | some e => if e < now then mapRemove key st.db else st.db
    | none => st.db
  let exp1 := match mapFind key db1 with
    | none => mapRemove key st.exp
    | some _ => st.exp
  (mapFind key db1, ⟨db1, exp1⟩)

/-- Model of `Redis::set`: insert or overwrite the value; insert the
expiry only when one is supplied. -/
def Redis.set (key value : Str) (exp : Option Nat) (st : KVState) : KVState :=
  { db := mapInsert key value st.db,
    exp := match exp with
      | some e => mapInsert key e st.exp
      | none => st.exp }

/-- Model of the snapshot-loading loop of `Redis::new`: entries with a
known future expiry are inserted into both maps, entries with no expiry
only into the value map, already-expired entries into neither. -/
def Redis.loadSnapshot (now : Nat) (kivals : List (Str × Str)) (expMap : List (Str × Nat)) :
    KVState :=
  kivals.foldl
    (fun st kv =>
      match mapFind kv.1 expMap with
      | some e =>
        if now < e then ⟨mapInsert kv.1 kv.2 st.db, mapInsert kv.1 e st.exp⟩ else st
      | none => ⟨mapInsert kv.1 kv.2 st.db, st.exp⟩)
    ⟨[], []⟩

/-- The keyspace states reachable in the server: an initial snapshot load
(possibly of nothing) followed by any interleaving of `get` and `set`. -/
inductive Reachable : KVState → Prop where
  | load (now : Nat) (kivals : List (Str × Str)) (expMap : List (Str × Nat)) :
      Reachable (Redis.loadSnapshot now kivals expMap)
  | getStep (now : Nat) (key : Str) (st : KVState) :
      Reachable st → Reachable (Redis.get now key st).2
  | setStep (key value : Str) (exp : Option Nat) (st : KVState) :
      Reachable st → Reachable (Redis.set key value exp st)

/-- Every key of the expiry map has an entry in the value map. -/
def expSubsetDb (st : KVState) : Prop :=
  st.exp.all (fun p => (mapFind p.1 st.db).isSome) = true

/-! ## The snapshot reader (`redis_db.rs`)

Bytes are modelled as `Nat` values below 256. -/

/-- The section opcodes of the dump format. -/
inductive RDBOpCodes where
  | Eof
  | SelectDB
  | ExpireTime
  | ExpireTimeMs
  | ResizeDB
  | Aux
deriving DecidableEq

/-- Model of `RDBOpCodes::from_u8`. -/
def RDBOpCodes.from_u8 (value : Nat) : Except String RDBOpCodes :=
  if value = 0xFF then .ok .Eof
  else if value = 0xFE then .ok .SelectDB
  else if value = 0xFD then .ok .ExpireTime
  else if value = 0xFC then .ok .ExpireTimeMs
  else if value = 0xFB then .ok .ResizeDB
  else if value = 0xFA then .ok .Aux
  else .error "Invalid RDB opcode"

/-- The four length encodings of the dump format. -/
inductive RDBLenEncodings where
  | SixBit (n : Nat)
  | FourteenBit (n : Nat)
  | SixtyFourBit (n : Nat)
  | SpecialEncoding (n : Nat)
deriving DecidableEq

/-- Read `k` bytes, big-endian, as the loops in `RDBLenEncodings::from_u8`
do (`val = (val << 8) | next_byte`). -/
def readBE (k : Nat) (acc : Nat) (bytes : List Nat) : Except String (Nat × List Nat) :=
  match k with
  | 0 => .ok (acc, bytes)
  | k + 1 =>
    match bytes with
    | [] => .error "Iter reached end"
    | b :: rest => readBE k (acc * 256 + b) rest

/-- Model of `RDBLenEncodings::from_u8`: reads one byte, dispatches on its
top two bits, and consumes the extra bytes of the encoding.  Returns the
decoded encoding and the remaining bytes. -/
def RDBLenEncodings.from_u8 : List Nat → Except String (RDBLenEncodings × List Nat)
  | [] => .error "Iter reached end"
  | b :: rest =>
    let hi := b % 256 / 64
    if hi = 0 then .ok (.SixBit b, rest)
    else if hi = 1 then
      match rest with
      | [] => .error "Iter reached end"
      | b2 :: r2 => .ok (.FourteenBit ((b % 64) * 256 + b2), r2)
    else if hi = 2 then
      match readBE 4 0 rest with
      | .error e => .error e
      | .ok (v, r2) => .ok (.SixtyFourBit v, r2)
    else
      let low := b % 64
      if low = 0 then
        match rest with
        | [] => .error "Iter reached end"
        | b2 :: r2 => .ok (.SpecialEncoding b2, r2)
      else if low < 3 then
        match readBE low 0 rest with
        | .error e => .error e
        | .ok (v, r2) => .ok (.SpecialEncoding v, r2)
      else .error "Special encoding"

/-- Little-endian value of a byte list, as `u64::from_le_bytes`. -/
def leBytesToNat : List Nat → Nat
  | [] => 0
  | b :: rest => b + 256 * leBytesToNat rest

/-- Model of `RedisDB::get_expiry`.  `nextByte` is the peeked opcode byte
and `byteIter` the full iterator (still holding that byte).  The outer
`Option` marks a panic: the source converts the collected bytes with
`arr.try_into().unwrap()` into a `[u8; 8]` for `u64::from_le_bytes`, which
panics whenever the collected vector does not hold exactly 8 bytes.  The
inner value is the `anyhow::Result<Option<SystemTime>>`, the instant in
milliseconds since the epoch. -/
def RedisDB.getExpiry (nextByte : Nat) (byteIter : List Nat) :
    Option (Except String (Option Nat)) :=
  match RDBOpCodes.from_u8 nextByte with
  | .error _ => some (.ok none)
  | .ok opcode =>
    match opcode with
    | .ExpireTime =>
      match byteIter with
      | [] => some (.error "Iter reached end")
      | _ :: rest =>
        let arr := rest.take 4
        if arr.length = 8 then some (.ok (some (1000 * leBytesToNat arr))) else none
    | .ExpireTimeMs =>
      match byteIter with
      | [] => some (.error "Iter reached end")
      | _ :: rest =>
        let arr := rest.take 8
        if arr.length = 8 then some (.ok (some (leBytesToNat arr))) else none
    | _ => some (.ok none)

/-! ## Replication plumbing (`redis_server.rs`) -/

/-- The two server roles. -/
inductive Role where
  | Primary
  | Replica
deriving DecidableEq

/-- The replication-relevant connection fields of the `Redis` struct.
Streams are identified by numbers. -/
structure ReplState where
  role : Role
  masterStream : Option Nat
  replicaStream : Option Nat
deriving DecidableEq

/-- Model of `Redis::new` as far as streams go: both stream fields start
`None`; only a replica runs `handshake_with_master`, which on success
stores the socket in `master_stream`.  A primary never sets it. -/
def Redis.newRepl (role : Role) (handshakeSocket : Nat) : ReplState :=
  match role with
  | .Primary => ⟨.Primary, none, none⟩
  | .Replica => ⟨.Replica, some handshakeSocket, none⟩

/-- Model of the `Psync` arm of `Redis::execute` on a primary: the
connection is recorded in `replica_stream`. -/
def Redis.acceptPsync (st : ReplState) (socket : Nat) : ReplState :=
  { st with replicaStream := some socket }

/-- Model of `Redis::replicate`: the spawned task writes the serialized
command to `master_stream` if that field is set; when `Command::serialize`
panics (`todo!()`), the task dies before writing.  The result is the list
of `(stream, bytes)` writes performed. -/
def Redis.replicate (st : ReplState) (cmd : Command) : List (Nat × Str) :=
  match st.masterStream with
  | none => []
  | some s =>
    match cmd.serialize with
    | none => []
    | some msg => [(s, msg)]

/-! ## Map lemmas -/

theorem mapFind_mapRemove {α : Type} (k k2 : Str) (m : List (Str × α)) :
    mapFind k (mapRemove k2 m) = if k2 = k then none else mapFind k m := by
  induction m with
  | nil => simp [mapRemove, mapFind]
  | cons p rest ih =>
    obtain ⟨k3, v⟩ := p
    by_cases h1 : k3 = k2 <;> by_cases h2 : k3 = k <;> by_cases h3 : k2 = k <;>
      simp_all [mapRemove, mapFind]

theorem mapFind_mapInsert {α : Type} (k k2 : Str) (v : α) (m : List (Str × α)) :
    mapFind k (mapInsert k2 v m) = if k2 = k then some v else mapFind k m := by
  by_cases h : k2 = k <;> simp [mapInsert, mapFind, mapFind_mapRemove, h]

theorem mapFind_of_mem {α : Type} (p : Str × α) (m : List (Str × α)) (h : p ∈ m) :
    ∃ u, mapFind p.1 m = some u := by
  induction m with
  | nil => simp at h
  | cons q rest ih =>
    obtain ⟨k2, v⟩ := q
    rcases List.mem_cons.mp h with h | h
    · subst h
      exact ⟨v, by simp [mapFind]⟩
    · by_cases hk : k2 = p.1
      · exact ⟨v, by simp [mapFind, hk]⟩
      · obtain ⟨u, hu⟩ := ih h
        exact ⟨u, by simp [mapFind, hk, hu]⟩

/-! ## The expiry-map invariant (claim C4) -/

/-- Pointwise form of the invariant: every key with an expiry entry has a
value entry. -/
def InvP (st : KVState) : Prop :=
  ∀ k t, mapFind k st.exp = some t → (mapFind k st.db).isSome = true

theorem expSubsetDb_of_invP (st : KVState) (h : InvP st) : expSubsetDb st := by
  unfold expSubsetDb
  rw [List.all_eq_true]
  intro p hp
  obtain ⟨u, hu⟩ := mapFind_of_mem p st.exp hp
  exact h p.1 u hu

theorem invP_set (key value : Str) (exp : Option Nat) (st : KVState) (h : InvP st) :
    InvP (Redis.set key value exp st) := by
  intro k t hk
  unfold Redis.set at hk ⊢
  simp only [mapFind_mapInsert]
  by_cases hkey : key = k
  · simp [hkey]
  · simp only [hkey, if_false]
    cases exp with
    | none => exact h k t hk
    | some e =>
      simp only [mapFind_mapInsert, hkey, if_false] at hk
      exact h k t hk

theorem invP_get (now : Nat) (key : Str) (st : KVState) (h : InvP st) :
    InvP (Redis.get now key st).2 := by
  intro k t hk
  unfold Redis.get at hk ⊢
  rcases hexp : mapFind key st.exp with _ | e <;> simp only [hexp] at hk ⊢
  · rcases hdb : mapFind key st.db with _ | v <;> simp only [hdb] at hk ⊢
    · rw [mapFind_mapRemove] at hk
      by_cases hkey : key = k
      · simp [hkey] at hk
      · simp only [hkey, if_false] at hk
        exact h k t hk
    · exact h k t hk
  · by_cases he : e < now <;> simp only [he, if_true, if_false] at hk ⊢
    · have hgone : mapFind key (mapRemove key st.db) = none := by
        simp [mapFind_mapRemove]
      simp only [hgone] at hk ⊢
      rw [mapFind_mapRemove] at hk
      by_cases hkey : key = k
      · simp [hkey] at hk
      · simp only [hkey, if_false] at hk
        rw [mapFind_mapRemove]
        simp only [hkey, if_false]
        exact h k t hk
    · rcases hdb : mapFind key st.db with _ | v <;> simp only [hdb] at hk ⊢
      · rw [mapFind_mapRemove] at hk
        by_cases hkey : key = k
        · simp [hkey] at hk
        · simp only [hkey, if_false] at hk
          exact h k t hk
      · exact h k t hk

theorem invP_load (now : Nat) (kivals : List (Str × Str)) (expMap : List (Str × Nat)) :
    InvP (Redis.loadSnapshot now kivals expMap) := by
  unfold Redis.loadSnapshot
  have hstep : ∀ (l : List (Str × Str)) (st : KVState), InvP st →
      InvP (l.foldl
        (fun st kv =>
          match mapFind kv.1 expMap with
          | some e =>
            if now < e then ⟨mapInsert kv.1 kv.2 st.db, mapInsert kv.1 e st.exp⟩ else st
          | none => ⟨mapInsert kv.1 kv.2 st.db, st.exp⟩)
        st) := by
    intro l
    induction l with
    | nil => intro st h; simpa using h
    | cons kv l ih =>
      intro st h
      rw [List.foldl_cons]
      apply ih
      rcases hexp : mapFind kv.1 expMap with _ | e
    
      · intro k t hk
        simp only at hk ⊢
        simp only [mapFind_mapInsert]
        by_cases hkey : kv.1 = k
        · simp [hkey]
        · simp only [hkey, if_false]
          exact h k t hk
      · by_cases hnow : now < e
        · simp only [hnow, if_true]
          intro k t hk
          simp only [mapFind_mapInsert] at hk ⊢
          by_cases hkey : kv.1 = k
          · simp [hkey]
          · simp only [hkey, if_false] at hk ⊢
            exact h k t hk
        · simp only [hnow, if_false]
          exact h
  exact hstep kivals ⟨[], []⟩ (by intro k t hk; simp [mapFind] at hk)

theorem invP_reachable (st : KVState) (h : Reachable st) : InvP st := by
  induction h with
  | load now kivals expMap => exact invP_load now kivals expMap
  | getStep now key st _ ih => exact invP_get now key st ih
  | setStep key value exp st _ ih => exact invP_set key value exp st ih

/-- Claim C4: in every reachable keyspace state — after the initial
snapshot load and after any sequence of `get` and `set` operations — every
key present in the expiry map is also present in the value map. -/
theorem expiry_subset_db_invariant (st : KVState) (h : Reachable st) : expSubsetDb st :=
  expSubsetDb_of_invP st (invP_reachable st h)

/-- Witness for C4: the invariant, evaluated on the state loaded from a
concrete snapshot. -/
theorem expiry_subset_db_invariant_witness :
    expSubsetDb (Redis.loadSnapshot 0 [("a".toList, "1".toList), ("b".toList, "2".toList)]
      [("a".toList, 99)]) :=
  expiry_subset_db_invariant _ (Reachable.load 0 _ _)

/-! ## Claims C2, C3 and C9 -/

/-- Counterexample for C2 as stated: `set(k, v, none)` does not clear a
previously recorded expiry, so starting from a reachable state in which
`k` carries the (by now elapsed) expiry instant 5, `set "k" "v2" none`
followed by `get "k"` at instant 10 returns `none`, not the value just
written. -/
theorem get_after_set_cex :
    (Redis.get 10 ("k".toList)
      (Redis.set ("k".toList) ("v2".toList) none
        (Redis.set ("k".toList) ("v".toList) (some 5) ⟨[], []⟩))).1 = none ∧
    (Redis.get 10 ("k".toList)
      (Redis.set ("k".toList) ("v2".toList) none
        (Redis.set ("k".toList) ("v".toList) (some 5) ⟨[], []⟩))).1 ≠
      some ("v2".toList) := by
  constructor
  · rfl
  · decide

/-- Claim C2 (amended): `set(k, v, none)` followed by `get(k)` returns `v`
provided any expiry recorded for `k` has not yet elapsed at the read
instant. -/
theorem get_after_set (st : KVState) (k v : Str) (now : Nat)
    (h : ∀ t, mapFind k st.exp = some t → now ≤ t) :
    (Redis.get now k (Redis.set k v none st)).1 = some v := by
  unfold Redis.set Redis.get
  rcases hexp : mapFind k st.exp with _ | e
  · simp [hexp, mapFind_mapInsert]
  · have hle := h e hexp
    have hlt : ¬ e < now := by omega
    simp [hexp, hlt, mapFind_mapInsert]

/-- Witness for the amended C2 at a concrete state. -/
theorem get_after_set_witness :
    (Redis.get 0 ("k".toList) (Redis.set ("k".toList) ("v".toList) none ⟨[], []⟩)).1
      = some ("v".toList) :=
  get_after_set ⟨[], []⟩ ("k".toList) ("v".toList) 0 (fun t ht => by simp [mapFind] at ht)

/-- Claim C3: when the stored expiry of `k` lies in the past, `get(k)`
returns `none` and afterwards `k` is absent from both the value map and
the expiry map. -/
theorem get_expired (st : KVState) (k : Str) (t now : Nat)
    (h1 : mapFind k st.exp = some t) (h2 : t < now) :
    (Redis.get now k st).1 = none ∧
    mapFind k (Redis.get now k st).2.db = none ∧
    mapFind k (Redis.get now k st).2.exp = none := by
  unfold Redis.get
  have hdb : mapFind k (mapRemove k st.db) = none := by simp [mapFind_mapRemove]
  simp [h1, h2, hdb, mapFind_mapRemove]

/-- Witness for C3 at a concrete state. -/
theorem get_expired_witness :
    (Redis.get 10 ("k".toList) ⟨[(("k".toList), "v".toList)], [(("k".toList), 5)]⟩).1 = none ∧
    mapFind ("k".toList)
      (Redis.get 10 ("k".toList) ⟨[(("k".toList), "v".toList)], [(("k".toList), 5)]⟩).2.db
        = none ∧
    mapFind ("k".toList)
      (Redis.get 10 ("k".toList) ⟨[(("k".toList), "v".toList)], [(("k".toList), 5)]⟩).2.exp
        = none :=
  get_expired ⟨[(("k".toList), "v".toList)], [(("k".toList), 5)]⟩ ("k".toList) 5 10 rfl
    (by decide)

/-- Claim C9: `set(k, v, none)` — a SET without PX — inserts or overwrites
the value and leaves the expiry map entirely unchanged. -/
theorem set_without_px (st : KVState) (k v : Str) :
    (Redis.set k v none st).exp = st.exp ∧
    mapFind k (Redis.set k v none st).db = some v := by
  constructor
  · rfl
  · simp [Redis.set, mapFind_mapInsert]

/-! ## Claims C1, C7 and C8 -/

/-- Claim C1 fails on the code: on a primary that has registered one
replica connection (stream 7) through PSYNC, a successful `Set` produces
zero outbound writes, because `Redis::replicate` writes to
`master_stream` — which is never set on a primary — rather than to the
registered replica stream; moreover `Command::serialize` on `Set` is
`todo!()` and panics, so no command array could be produced at all. -/
theorem replicate_set_sends_nothing :
    Redis.replicate (Redis.acceptPsync (Redis.newRepl .Primary 0) 7)
      (Command.Set ("foo".toList) ("bar".toList) none) = [] ∧
    Command.serialize (Command.Set ("foo".toList) ("bar".toList) none) = none ∧
    (Redis.acceptPsync (Redis.newRepl .Primary 0) 7).replicaStream = some 7 := by
  refine ⟨rfl, rfl, rfl⟩

/-- Claim C7 fails on the code: on meeting the `0xFD` ExpireTime opcode
with any byte available, `RedisDB::get_expiry` collects at most 4 bytes
and then calls `u64::from_le_bytes(arr.try_into().unwrap())`, which needs
exactly 8 bytes and therefore always panics (`none`), rather than reading
a 4-byte seconds timestamp or returning an error. -/
theorem get_expiry_expiretime_panics (b : Nat) (rest : List Nat) :
    RedisDB.getExpiry 253 (b :: rest) = none := by
  have hop : RDBOpCodes.from_u8 253 = .ok .ExpireTime := rfl
  unfold RedisDB.getExpiry
  rw [hop]
  have h4 : (rest.take 4).length ≤ 4 := List.length_take_le 4 rest
  have hlen : ¬ (rest.take 4).length = 8 := by omega
  show (if (rest.take 4).length = 8
      then some (Except.ok (some (1000 * leBytesToNat (rest.take 4)))) else none) = none
  rw [if_neg hlen]

/-- Claim C8 fails on the code: in the `11` length encoding the source
reads `low` bytes where `low` is the low-6-bits value, so `low = 2` reads
2 bytes instead of 4 and `low = 1` reads 1 byte instead of 2.  The first
conjunct evaluates the decoder on the int32-encoded `ctime` field taken
from the program's own hard-coded empty-RDB payload (`C2 6D 08 BC 65`):
only 2 of the 4 payload bytes are consumed.  The second shows `low = 1`
consuming a single byte. -/
theorem rdb_len_special_encoding_eval :
    RDBLenEncodings.from_u8 [194, 109, 8, 188, 101]
      = .ok (.SpecialEncoding 27912, [188, 101]) ∧
    RDBLenEncodings.from_u8 [193, 5, 7] = .ok (.SpecialEncoding 5, [7]) := by
  refine ⟨rfl, rfl⟩

/-! ## RESP codec lemmas (claims C5, C6, C10) -/

/-- Reply-shaped string frames: simple or bulk strings whose payload
contains no CRLF (and, for bulk strings, fits a `usize` length). -/
def wfStrB : RDT → Bool
  | .SimpleString s => !hasCRLF s
  | .BulkString s => !hasCRLF s && decide (s.length < 2 ^ 64)
  | .Array _ => false

/-- The frame shapes used in replies: CRLF-free simple and bulk strings,
and flat arrays of these. -/
def wellFormedReplyB : RDT → Bool
  | .Array es => decide (es.length < 2 ^ 64) && es.all wfStrB
  | f => wfStrB f

theorem parseFrames_cons_empty (fuel : Nat) (arrLen : Option Nat) (count : Nat)
    (rest : List Str) :
    parseFrames (fuel + 1) arrLen count ([] :: rest) =
      if arrLen = some (count + 1) then some ([], rest)
      else
        match parseFrames fuel arrLen (count + 1) rest with
        | none => none
        | some (fs2, r) => some (fs2, r) := rfl

theorem parseFrames_cons_simple (fuel : Nat) (arrLen : Option Nat) (count : Nat) (s : Str)
    (rest : List Str) :
    parseFrames (fuel + 1) arrLen count (('+' :: s) :: rest) =
      if arrLen = some (count + 1) then some ([RDT.SimpleString s], rest)
      else
        match parseFrames fuel arrLen (count + 1) rest with
        | none => none
        | some (fs2, r) => some (RDT.SimpleString s :: fs2, r) := rfl

theorem parseFrames_cons_star (fuel : Nat) (arrLen : Option Nat) (count : Nat) (u : Str)
    (rest : List Str) :
    parseFrames (fuel + 1) arrLen count (('*' :: u) :: rest) =
      match
        (match parseNum64 u with
         | some n =>
           match parseFrames fuel (some n) 0 rest with
           | none => none
           | some (arr, r) => some ([RDT.Array arr], r)
         | none => some ([], rest)) with
      | none => none
      | some (fs, rest2) =>
        if arrLen = some (count + 1) then some (fs, rest2)
        else
          match parseFrames fuel arrLen (count + 1) rest2 with
          | none => none
          | some (fs2, r) => some (fs ++ fs2, r) := rfl

theorem parseFrames_cons_bulk (fuel : Nat) (arrLen : Option Nat) (count : Nat) (u : Str)
    (rest : List Str) :
    parseFrames (fuel + 1) arrLen count (('$' :: u) :: rest) =
      match
        (match parseNum64 u with
         | some n =>
           match rest with
           | [] => some ([], ([] : List Str))
           | b :: r2 => if b.length = n then some ([RDT.BulkString b], r2) else none
         | none => some ([], rest)) with
      | none => none
      | some (fs, rest2) =>
        if arrLen = some (count + 1) then some (fs, rest2)
        else
          match parseFrames fuel arrLen (count + 1) rest2 with
          | none => none
          | some (fs2, r) => some (fs ++ fs2, r) := rfl

/-- A trailing empty token (produced by the final CRLF of the buffer) is
consumed without effect. -/
theorem parseFrames_trailing (fuel count : Nat) :
    parseFrames (fuel + 1) none count [[]] = some ([], []) := by
  rw [parseFrames_cons_empty, if_neg (by simp)]
  cases fuel with
  | zero => rfl
  | succ f => rfl

theorem hasCRLF_cons_ne (c : Char) (s : Str) (h : ¬ c = '\r') :
    hasCRLF (c :: s) = hasCRLF s := by
  rw [hasCRLF]
  simp [h]

theorem tokensOf_wfStr_noCRLF (e : RDT) (h : wfStrB e = true) :
    ∀ t ∈ tokensOf e, hasCRLF t = false := by
  cases e with
  | SimpleString s =>
    intro t ht
    simp only [tokensOf, List.mem_singleton] at ht
    subst ht
    rw [hasCRLF_cons_ne _ _ (by decide)]
    simpa [wfStrB] using h
  | BulkString s =>
    intro t ht
    simp only [wfStrB, Bool.and_eq_true, Bool.not_eq_true', decide_eq_true_eq] at h
    simp only [tokensOf, List.mem_cons, List.mem_singleton, List.not_mem_nil, or_false] at ht
    rcases ht with ht | ht
    · subst ht
      rw [hasCRLF_cons_ne _ _ (by decide)]
      exact hasCRLF_eq_false_of_digits _ (natToChars_all_digits s.length)
    · subst ht
      exact h.1
  | Array es => simp [wfStrB] at h

theorem tokensOfList_noCRLF (es : List RDT) (h : ∀ e ∈ es, wfStrB e = true) :
    ∀ t ∈ tokensOfList es, hasCRLF t = false := by
  induction es with
  | nil => simp [tokensOfList]
  | cons e es ih =>
    intro t ht
    rw [tokensOfList] at ht
    rcases List.mem_append.mp ht with ht | ht
    · exact tokensOf_wfStr_noCRLF e (h e (by simp)) t ht
    · exact ih (fun u hu => h u (by simp [hu])) t ht

theorem joinCRLF_append (a b : List Str) :
    joinCRLF (a ++ b) = joinCRLF a ++ joinCRLF b := by
  induction a with
  | nil => simp [joinCRLF]
  | cons t a ih => simp [joinCRLF, ih]

theorem serialize_str_eq_joinCRLF (e : RDT) (h : wfStrB e = true) :
    RDT.serialize e = joinCRLF (tokensOf e) := by
  cases e with
  | SimpleString s => simp [RDT.serialize, tokensOf, joinCRLF]
  | BulkString s => simp [RDT.serialize, tokensOf, joinCRLF]
  | Array es => simp [wfStrB] at h

theorem serializeList_eq_joinCRLF (es : List RDT) (h : ∀ e ∈ es, wfStrB e = true) :
    serializeRDTList es = joinCRLF (tokensOfList es) := by
  induction es with
  | nil => rfl
  | cons e es ih =>
    rw [serializeRDTList, tokensOfList, joinCRLF_append,
      serialize_str_eq_joinCRLF e (h e (by simp)), ih (fun u hu => h u (by simp [hu]))]

theorem parseFrames_cons_bulk_ok (fuel : Nat) (arrLen : Option Nat) (count n : Nat)
    (u b : Str) (rest : List Str) (hu : parseNum64 u = some n) (hb : b.length = n) :
    parseFrames (fuel + 1) arrLen count (('$' :: u) :: b :: rest) =
      if arrLen = some (count + 1) then some ([RDT.BulkString b], rest)
      else
        match parseFrames fuel arrLen (count + 1) rest with
        | none => none
        | some (fs2, r) => some (RDT.BulkString b :: fs2, r) := by
  rw [parseFrames_cons_bulk, hu]
  subst hb
  simp

theorem parseFrames_cons_star_ok (fuel : Nat) (arrLen : Option Nat) (count n : Nat)
    (u : Str) (rest : List Str) (arr : List RDT) (r2 : List Str)
    (hu : parseNum64 u = some n) (hinner : parseFrames fuel (some n) 0 rest = some (arr, r2)) :
    parseFrames (fuel + 1) arrLen count (('*' :: u) :: rest) =
      if arrLen = some (count + 1) then some ([RDT.Array arr], r2)
      else
        match parseFrames fuel arrLen (count + 1) r2 with
        | none => none
        | some (fs2, r) => some (RDT.Array arr :: fs2, r) := by
  rw [parseFrames_cons_star, hu]
  simp [hinner]

/-- Parsing the concatenated tokens of a nonempty list of reply-shaped
string frames, under an array header expecting exactly that many loop
iterations, returns exactly those frames and leaves the trailing tokens
untouched. -/
theorem parseFrames_elems (es : List RDT) :
    es ≠ [] → (∀ e ∈ es, wfStrB e = true) →
    ∀ fuel count rest, (tokensOfList es ++ rest).length ≤ fuel →
      parseFrames fuel (some (count + es.length)) count (tokensOfList es ++ rest)
        = some (es, rest) := by
  induction es with
  | nil => intro h; exact absurd rfl h
  | cons e es ih =>
    intro _ hwf fuel count rest hfuel
    have hwfe : wfStrB e = true := hwf e (by simp)
    have hwfes : ∀ u ∈ es, wfStrB u = true := fun u hu => hwf u (by simp [hu])
    cases e with
    | Array arr => simp [wfStrB] at hwfe
    | SimpleString s =>
      have htok : tokensOfList (RDT.SimpleString s :: es) ++ rest
          = ('+' :: s) :: (tokensOfList es ++ rest) := by
        rw [tokensOfList, tokensOf]
        simp
      rw [htok] at hfuel ⊢
      cases fuel with
      | zero =>
        simp only [List.length_cons] at hfuel
        omega
      | succ f =>
        rw [parseFrames_cons_simple]
        cases es with
        | nil =>
          rw [if_pos (by simp)]
          simp [tokensOfList]
        | cons e2 es2 =>
          rw [if_neg (by simp)]
          have harr : count + (RDT.SimpleString s :: e2 :: es2).length
              = (count + 1) + (e2 :: es2).length := by
            simp only [List.length_cons]
            omega
          rw [harr]
          have hrest : (tokensOfList (e2 :: es2) ++ rest).length ≤ f := by
            simp only [List.length_cons] at hfuel
            omega
          rw [ih (by simp) hwfes f (count + 1) rest hrest]
    | BulkString s =>
      have hr := hwfe
      simp only [wfStrB, Bool.and_eq_true, Bool.not_eq_true', decide_eq_true_eq] at hr
      obtain ⟨hcrlf, hlen⟩ := hr
      have htok : tokensOfList (RDT.BulkString s :: es) ++ rest
          = ('$' :: natToChars s.length) :: s :: (tokensOfList es ++ rest) := by
        rw [tokensOfList, tokensOf]
        simp
      rw [htok] at hfuel ⊢
      cases fuel with
      | zero =>
        simp only [List.length_cons] at hfuel
        omega
      | succ f =>
        rw [parseFrames_cons_bulk_ok _ _ _ _ _ _ _ (parseNum64_natToChars s.length hlen) rfl]
        cases es with
        | nil =>
          rw [if_pos (by simp)]
          simp [tokensOfList]
        | cons e2 es2 =>
          rw [if_neg (by simp)]
          have harr : count + (RDT.BulkString s :: e2 :: es2).length
              = (count + 1) + (e2 :: es2).length := by
            simp only [List.length_cons]
            omega
          rw [harr]
          have hrest : (tokensOfList (e2 :: es2) ++ rest).length ≤ f := by
            simp only [List.length_cons] at hfuel
            omega
          rw [ih (by simp) hwfes f (count + 1) rest hrest]

/-- Claim C6: for every frame shape used in replies — CRLF-free simple and
bulk strings, and flat arrays of these — decoding the encoding of the
frame yields the frame back. -/
theorem resp_roundtrip (f : RDT) (h : wellFormedReplyB f = true) :
    RDT.deserialize (RDT.serialize f) = some f := by
  cases f with
  | SimpleString s =>
    have hwf : wfStrB (RDT.SimpleString s) = true := h
    have htoks : splitCRLF (RDT.serialize (RDT.SimpleString s)) = [('+' :: s), []] := by
      rw [serialize_str_eq_joinCRLF _ hwf, splitCRLF_joinCRLF _ (tokensOf_wfStr_noCRLF _ hwf)]
      rfl
    unfold RDT.deserialize parseTop
    rw [htoks, show ([('+' :: s), ([] : Str)] : List Str).length = (0 + 1) + 1 from rfl,
      parseFrames_cons_simple, if_neg (by simp), parseFrames_trailing]
    rfl
  | BulkString s =>
    have hwf : wfStrB (RDT.BulkString s) = true := h
    have hr := hwf
    simp only [wfStrB, Bool.and_eq_true, Bool.not_eq_true', decide_eq_true_eq] at hr
    obtain ⟨hcrlf, hlen⟩ := hr
    have htoks : splitCRLF (RDT.serialize (RDT.BulkString s))
        = [('$' :: natToChars s.length), s, []] := by
      rw [serialize_str_eq_joinCRLF _ hwf, splitCRLF_joinCRLF _ (tokensOf_wfStr_noCRLF _ hwf)]
      rfl
    unfold RDT.deserialize parseTop
    rw [htoks,
      show ([('$' :: natToChars s.length), s, ([] : Str)] : List Str).length
        = ((0 + 1) + 1) + 1 from rfl,
      parseFrames_cons_bulk_ok _ _ _ _ _ _ _ (parseNum64_natToChars s.length hlen) rfl,
      if_neg (by simp), parseFrames_trailing]
    rfl
  | Array es =>
    cases es with
    | nil => rfl
    | cons e es2 =>
      simp only [wellFormedReplyB, Bool.and_eq_true, decide_eq_true_eq,
        List.all_eq_true] at h
      have hne : (e :: es2) ≠ [] := by simp
      have hser : RDT.serialize (RDT.Array (e :: es2))
          = joinCRLF (('*' :: natToChars (e :: es2).length) :: tokensOfList (e :: es2)) := by
        rw [RDT.serialize, serializeList_eq_joinCRLF _ h.2]
        simp [joinCRLF]
      have hnocrlf : ∀ t ∈ ('*' :: natToChars (e :: es2).length) :: tokensOfList (e :: es2),
          hasCRLF t = false := by
        intro t ht
        rcases List.mem_cons.mp ht with ht | ht
        · subst ht
          rw [hasCRLF_cons_ne _ _ (by decide)]
          exact hasCRLF_eq_false_of_digits _ (natToChars_all_digits _)
        · exact tokensOfList_noCRLF _ h.2 t ht
      have htoks : splitCRLF (RDT.serialize (RDT.Array (e :: es2)))
          = ('*' :: natToChars (e :: es2).length) :: (tokensOfList (e :: es2) ++ [[]]) := by
        rw [hser, splitCRLF_joinCRLF _ hnocrlf]
        simp
      unfold RDT.deserialize parseTop
      rw [htoks, List.length_cons, List.length_append,
        show ([([] : Str)] : List Str).length = 1 from rfl]
      have helems := parseFrames_elems (e :: es2) hne h.2
        ((tokensOfList (e :: es2)).length + 1) 0 [[]] (by simp)
      rw [Nat.zero_add] at helems
      rw [parseFrames_cons_star_ok _ _ _ _ _ _ _ _ (parseNum64_natToChars _ h.1) helems,
        if_neg (by simp), parseFrames_trailing]
      rfl

/-- Witness for C6: the round trip evaluated on a concrete reply-shaped
array frame. -/
theorem resp_roundtrip_witness :
    wellFormedReplyB (RDT.Array [RDT.BulkString ("a".toList), RDT.SimpleString ("ok".toList)])
      = true ∧
    RDT.deserialize (RDT.serialize
        (RDT.Array [RDT.BulkString ("a".toList), RDT.SimpleString ("ok".toList)]))
      = some (RDT.Array [RDT.BulkString ("a".toList), RDT.SimpleString ("ok".toList)]) :=
  ⟨rfl, resp_roundtrip _ rfl⟩

/-- Counterexample for C5 as stated: on the pipelined buffer holding a
PING request followed by an ECHO request, the decoder emits only the
commands of the last top-level frame; the PING is dropped. -/
theorem pipelined_commands_cex :
    Command.deserialize 0 ("*1\r\n$4\r\nPING\r\n*2\r\n$4\r\nECHO\r\n$2\r\nhi\r\n".toList)
      = some [Command.Echo ("hi".toList)] ∧
    Command.deserialize 0 ("*1\r\n$4\r\nPING\r\n*2\r\n$4\r\nECHO\r\n$2\r\nhi\r\n".toList)
      ≠ some [Command.Ping, Command.Echo ("hi".toList)] := by
  constructor
  · rfl
  · decide

/-- Claim C5 (amended): the decoder parses every top-level frame of the
buffer, but `pop()` keeps only the last; when that last frame is an array
(and nothing panics), the emitted commands are exactly the commands of the
last top-level frame. -/
theorem pipelined_commands_last_only (now : Nat) (req : Str) (frames : List RDT)
    (rest : List Str) (arr : List RDT)
    (h1 : parseTop req = some (frames, rest))
    (h2 : frames.getLast? = some (RDT.Array arr)) :
    Command.deserialize now req = Command.parseCmds now arr := by
  have hd : RDT.deserialize req = some (RDT.Array arr) := by
    unfold RDT.deserialize
    rw [h1]
    exact h2
  unfold Command.deserialize
  rw [hd]

/-- Witness for the amended C5: a buffer with two top-level frames, whose
last frame is a PING array; the decoder returns exactly that frame's
commands. -/
theorem pipelined_commands_last_only_witness :
    Command.deserialize 0 ("+A\r\n*1\r\n$4\r\nPING\r\n".toList)
      = Command.parseCmds 0 [RDT.BulkString ("PING".toList)] :=
  pipelined_commands_last_only 0 _
    [RDT.SimpleString ("A".toList), RDT.Array [RDT.BulkString ("PING".toList)]]
    [] [RDT.BulkString ("PING".toList)] rfl rfl

/-- Claim C10: `Command::deserialize` panics (modelled as `none`) whenever
the last top-level frame of the input is not an array — `panic!("Invalid
data type")` — and when no frame parses at all — `pop().unwrap()`. -/
theorem command_deserialize_panics (now : Nat) (req : Str)
    (h : ∀ frames rest, parseTop req = some (frames, rest) →
      ∀ arr, frames.getLast? ≠ some (RDT.Array arr)) :
    Command.deserialize now req = none := by
  unfold Command.deserialize RDT.deserialize
  rcases hp : parseTop req with _ | ⟨frames, rest⟩
  · rfl
  · rcases hl : frames.getLast? with _ | f
    · simp [hl]
    · cases f with
      | Array arr => exact absurd hl (h frames rest hp arr)
      | SimpleString s => simp [hl]
      | BulkString s => simp [hl]

/-- Witness for C10: a buffer whose only top-level frame is a simple
string; `Command::deserialize` panics. -/
theorem command_deserialize_panics_witness :
    Command.deserialize 0 ("+OK\r\n".toList) = none :=
  command_deserialize_panics 0 _ (by
    intro frames rest hp arr
    rw [show parseTop ("+OK\r\n".toList)
        = some ([RDT.SimpleString ("OK".toList)], ([] : List Str)) from rfl] at hp
    cases hp
    simp)
